import Mathlib

/-!
# Verification of the stormglass surf-report core (`scripts/surf_report.py`)

A shallow embedding of the data-reconciliation and scoring engine:

* JSON-like values (`JVal`) model the Python `Any` values flowing through the
  metric resolver; Python `float(...)` conversion is modelled by `toFloatQ`
  (numbers, booleans — which are `int` subclasses in Python — and decimal
  numeric strings convert; everything else fails, i.e. raises and is caught).
* Machine floats are modelled by `ℚ`; `round(x, 4)` by `round4` (round half up;
  Python's float `round` is banker's rounding, a difference only at exact
  half-ulp ties which is immaterial to every property stated here).
* Fallible code returns `Except SurfError`; `SurfError.dataGap` models the
  `ApiError` raised for zero usable records (the spec's DataGap condition) and
  `SurfError.parseFail` models the `ValueError` escaping
  `datetime.fromisoformat` on an unparseable timestamp.
-/

/-- A JSON-like value: the shape of payload fragments reaching the core.
Arrays are not modelled (no claim involves them); they would behave like
`obj` for every function here (not a number, not convertible). -/
inductive JVal where
  | null : JVal
  | bool : Bool → JVal
  | num : ℚ → JVal
  | str : String → JVal
  | obj : List (String × JVal) → JVal

/-- Numeric value of a decimal digit, `none` for a non-digit. -/
def digitVal (c : Char) : Option Nat :=
  if c.isDigit then some (c.toNat - 48) else none

/-- Value of a digit run read left to right. -/
def digitsVal (ds : List Char) : Nat :=
  ds.foldl (fun a c => a * 10 + (c.toNat - 48)) 0

/-- Model of Python `float(s)` on a string: optional sign, an integer part
and/or a fractional part (`"1"`, `"1.5"`, `".5"`, `"1."`).  Exponent forms,
`inf`/`nan` and surrounding whitespace are not modelled; on those this model
fails where Python would succeed, which no claim depends on. -/
def strToFloatQ (s : String) : Option ℚ :=
  let cs := s.data
  let signed : ℚ × List Char :=
    match cs with
    | '+' :: r => (1, r)
    | '-' :: r => (-1, r)
    | _ => (1, cs)
  let sign := signed.1
  let cs1 := signed.2
  let intDs := cs1.takeWhile fun c => c.isDigit
  let rest := cs1.dropWhile fun c => c.isDigit
  match rest with
  | [] =>
    if intDs.isEmpty then none
    else some (sign * (digitsVal intDs : ℚ))
  | '.' :: r2 =>
    let fracDs := r2.takeWhile fun c => c.isDigit
    let rest2 := r2.dropWhile fun c => c.isDigit
    if rest2.isEmpty ∧ ¬(intDs.isEmpty ∧ fracDs.isEmpty) then
      some (sign * ((digitsVal intDs : ℚ) +
        (digitsVal fracDs : ℚ) / ((10 : ℚ) ^ fracDs.length)))
    else none
  | _ => none

/-- Model of Python `float(v)` on an arbitrary value: numbers pass through,
booleans coerce (`bool` is an `int` subclass in Python), numeric strings
convert, everything else raises `TypeError`/`ValueError`, modelled as `none`. -/
def toFloatQ : JVal → Option ℚ
  | JVal.null => none
  | JVal.bool b => some (if b then 1 else 0)
  | JVal.num q => some q
  | JVal.str s => strToFloatQ s
  | JVal.obj _ => none

/-- `DEFAULT_SOURCE_ORDER` from the source. -/
def DEFAULT_SOURCE_ORDER : List String := ["sg", "icon", "gfs", "ecmwf", "dwd", "noaa"]

/-- The first loop of `select_metric_value`: scan the effective key order,
returning the first present, non-null, convertible entry
(`if key in raw and raw[key] is not None: try: return float(raw[key])`). -/
def scanOrdered (entries : List (String × JVal)) : List String → Option ℚ
  | [] => none
  | key :: rest =>
    match List.lookup key entries with
    | none => scanOrdered entries rest
    | some JVal.null => scanOrdered entries rest
    | some v =>
      match toFloatQ v with
      | some q => some q
      | none => scanOrdered entries rest

/-- The second loop of `select_metric_value`: first non-null convertible value
in the mapping's insertion order (`for val in raw.values(): ...`). -/
def scanValues : List JVal → Option ℚ
  | [] => none
  | JVal.null :: rest => scanValues rest
  | v :: rest =>
    match toFloatQ v with
    | some q => some q
    | none => scanValues rest

/-- `select_metric_value(raw, source_order)` from the source.  `None` input and
non-`dict` non-numeric input yield `None`; a bare number (or `bool`, an `int`
subclass) is returned as a float; a mapping is scanned in the effective order
`source_order + [src for src in DEFAULT_SOURCE_ORDER if src not in source_order]`
and then, failing that, over its values in insertion order. -/
def select_metric_value (raw : JVal) (source_order : List String) : Option ℚ :=
  match raw with
  | JVal.null => none
  | JVal.num q => some q
  | JVal.bool b => some (if b then 1 else 0)
  | JVal.str _ => none
  | JVal.obj entries =>
    let ordered := source_order ++
      DEFAULT_SOURCE_ORDER.filter fun src => !(source_order.contains src)
    match scanOrdered entries ordered with
    | some q => some q
    | none => scanValues (entries.map Prod.snd)

/-- Modelled from the spec: the effective lookup order — `preferredOrder`
followed by the system default order with duplicates removed, preferred
entries keeping priority. -/
def effective_order_spec (preferred : List String) : List String :=
  preferred ++ DEFAULT_SOURCE_ORDER.filter fun s => !(preferred.contains s)

/-- Modelled from the spec: the value an ordered key yields — present,
non-null and numerically convertible. -/
def key_hit_spec (entries : List (String × JVal)) (key : String) : Option ℚ :=
  match List.lookup key entries with
  | none => none
  | some JVal.null => none
  | some v => toFloatQ v

/-- Modelled from the spec: a non-null numerically-convertible value. -/
def value_hit_spec : JVal → Option ℚ
  | JVal.null => none
  | v => toFloatQ v

/-- Modelled from the spec (§4.1): return the first present, non-null,
numerically-convertible entry in the effective lookup order; if none of the
ordered keys match, fall back to the first non-null numerically-convertible
value in the mapping's insertion order. -/
def resolve_spec (entries : List (String × JVal)) (preferred : List String) : Option ℚ :=
  ((effective_order_spec preferred).findSome? (key_hit_spec entries)).orElse
    fun _ => (entries.map Prod.snd).findSome? value_hit_spec

theorem scanOrdered_eq_findSome (entries : List (String × JVal)) :
    ∀ keys : List String, scanOrdered entries keys = keys.findSome? (key_hit_spec entries) := by
  intro keys
  induction keys with
  | nil => rfl
  | cons key rest ih =>
    rw [List.findSome?_cons]
    unfold scanOrdered key_hit_spec
    cases h : List.lookup key entries with
    | none => simpa [h] using ih
    | some v =>
      cases v with
      | null => simpa [h] using ih
      | bool b => simp [h, toFloatQ]
      | num q => simp [h, toFloatQ]
      | str s =>
        cases hf : strToFloatQ s with
        | none => simpa [h, toFloatQ, hf] using ih
        | some q => simp [h, toFloatQ, hf]
      | obj o => simpa [h, toFloatQ] using ih

theorem scanValues_eq_findSome :
    ∀ vals : List JVal, scanValues vals = vals.findSome? value_hit_spec := by
  intro vals
  induction vals with
  | nil => rfl
  | cons v rest ih =>
    rw [List.findSome?_cons]
    cases v with
    | null => simpa [scanValues, value_hit_spec] using ih
    | bool b => simp [scanValues, value_hit_spec, toFloatQ]
    | num q => simp [scanValues, value_hit_spec, toFloatQ]
    | str s =>
      cases hf : strToFloatQ s with
      | none => simpa [scanValues, value_hit_spec, toFloatQ, hf] using ih
      | some q => simp [scanValues, value_hit_spec, toFloatQ, hf]
    | obj o => simpa [scanValues, value_hit_spec, toFloatQ] using ih

/-- C1: for every metric mapping and preference order, `select_metric_value`
returns the first present, non-null, numerically-convertible entry in the
effective lookup order (preference order, then the default order
`[sg, icon, gfs, ecmwf, dwd, noaa]` with duplicates removed, preferred
entries keeping priority), falling back to the first non-null
numerically-convertible value in insertion order; and the mapping
`{icon: 1.5, gfs: 1.8}` with preference order `[gfs]` resolves to `1.8`. -/
theorem select_metric_value_resolves_in_order :
    (∀ (entries : List (String × JVal)) (preferred : List String),
      select_metric_value (JVal.obj entries) preferred = resolve_spec entries preferred)
    ∧ select_metric_value
        (JVal.obj [("icon", JVal.num (3/2)), ("gfs", JVal.num (9/5))]) ["gfs"]
        = some (9/5) := by
  constructor
  · intro entries preferred
    simp only [select_metric_value, resolve_spec, effective_order_spec]
    rw [scanOrdered_eq_findSome, ← scanValues_eq_findSome]
    cases h : (preferred ++ DEFAULT_SOURCE_ORDER.filter fun s =>
        !(preferred.contains s)).findSome? (key_hit_spec entries) with
    | none => simp [Option.orElse, h]
    | some q => simp [Option.orElse, h]
  · rfl

/-- C8: `select_metric_value` is total — for every input value and preference
order it returns either a number or the unknown marker (`none`), never an
exception (every fallible conversion is caught and skipped); in particular a
non-numeric value sitting at the highest-priority key is skipped and
resolution continues with the next candidate. -/
theorem select_metric_value_total :
    (∀ (raw : JVal) (order : List String),
      select_metric_value raw order = none ∨
        ∃ q : ℚ, select_metric_value raw order = some q)
    ∧ select_metric_value
        (JVal.obj [("sg", JVal.str "n/a"), ("icon", JVal.num 2)]) [] = some 2 := by
  constructor
  · intro raw order
    cases h : select_metric_value raw order with
    | none => exact Or.inl rfl
    | some q => exact Or.inr ⟨q, rfl⟩
  · rfl

/-- Read exactly `n` decimal digits, accumulating their value. -/
def readFixed : Nat → Nat → List Char → Option (Nat × List Char)
  | 0, acc, cs => some (acc, cs)
  | _ + 1, _, [] => none
  | n + 1, acc, c :: cs =>
    match digitVal c with
    | some d => readFixed n (acc * 10 + d) cs
    | none => none

/-- Consume one expected character. -/
def expectChar (c : Char) : List Char → Option (List Char)
  | [] => none
  | x :: xs => if x = c then some xs else none

/-- Gregorian leap-year rule (as in Python's `datetime`). -/
def isLeapYear (y : Int) : Bool :=
  (y.emod 4 == 0 && y.emod 100 != 0) || y.emod 400 == 0

/-- Number of days in a month. -/
def daysInMonth (y : Int) (m : Nat) : Nat :=
  if m = 2 then (if isLeapYear y then 29 else 28)
  else if m = 4 ∨ m = 6 ∨ m = 9 ∨ m = 11 then 30 else 31

/-- Days from the civil epoch 1970-01-01 (Howard Hinnant's algorithm, as used
by proleptic-Gregorian calendar arithmetic; truncating division intended). -/
def daysFromCivil (y : Int) (m d : Nat) : Int :=
  let yy : Int := if m ≤ 2 then y - 1 else y
  let era : Int := Int.tdiv (if 0 ≤ yy then yy else yy - 399) 400
  let yoe : Int := yy - era * 400
  let mp : Nat := if 2 < m then m - 3 else m + 9
  let doy : Nat := (153 * mp + 2) / 5 + d - 1
  let doe : Int := yoe * 365 + Int.tdiv yoe 4 - Int.tdiv yoe 100 + (doy : Int)
  era * 146097 + doe - 719468

/-- Parse a trailing UTC-offset suffix, returning the offset in seconds.  An
empty suffix is a naive timestamp; `datetime.fromisoformat(...).astimezone(utc)`
then interprets it in the process's local timezone — modelled as UTC. -/
def parseOffset : List Char → Option Int
  | [] => some 0
  | '+' :: r => do
    let or1 ← readFixed 2 0 r
    let r2 ← expectChar ':' or1.2
    let or3 ← readFixed 2 0 r2
    if or3.2.isEmpty ∧ or1.1 ≤ 23 ∧ or3.1 ≤ 59 then
      some ((or1.1 : Int) * 3600 + (or3.1 : Int) * 60)
    else none
  | '-' :: r => do
    let or1 ← readFixed 2 0 r
    let r2 ← expectChar ':' or1.2
    let or3 ← readFixed 2 0 r2
    if or3.2.isEmpty ∧ or1.1 ≤ 23 ∧ or3.1 ≤ 59 then
      some (-((or1.1 : Int) * 3600 + (or3.1 : Int) * 60))
    else none
  | _ => none

/-- Parse `YYYY-MM-DD[THH:MM:SS[±HH:MM]]` into seconds since the Unix epoch. -/
def parseIsoChars (cs : List Char) : Option Int := do
  let yr ← readFixed 4 0 cs
  let r2 ← expectChar '-' yr.2
  let mr ← readFixed 2 0 r2
  let r4 ← expectChar '-' mr.2
  let dr ← readFixed 2 0 r4
  let y : Int := yr.1
  if 1 ≤ mr.1 ∧ mr.1 ≤ 12 ∧ 1 ≤ dr.1 ∧ dr.1 ≤ daysInMonth y mr.1 then
    match dr.2 with
    | [] => some (86400 * daysFromCivil y mr.1 dr.1)
    | 'T' :: r6 => do
      let hr ← readFixed 2 0 r6
      let r8 ← expectChar ':' hr.2
      let nr ← readFixed 2 0 r8
      let r10 ← expectChar ':' nr.2
      let sr ← readFixed 2 0 r10
      if hr.1 ≤ 23 ∧ nr.1 ≤ 59 ∧ sr.1 ≤ 59 then do
        let off ← parseOffset sr.2
        some (86400 * daysFromCivil y mr.1 dr.1 +
          3600 * (hr.1 : Int) + 60 * (nr.1 : Int) + (sr.1 : Int) - off)
      else none
    | _ => none
  else none

/-- `parse_time(value)` from the source: a trailing `Z` is rewritten to
`+00:00`, then the value is parsed as an ISO-8601 timestamp and converted to
UTC.  Modelled as seconds since the Unix epoch; `none` models the `ValueError`
raised by `datetime.fromisoformat` on unparseable input.  The model covers the
`YYYY-MM-DD[THH:MM:SS[±HH:MM]]` subset of the formats Python accepts
(fractional seconds and exotic separators are not modelled). -/
def parse_time (value : String) : Option Int :=
  let cs := value.data
  let v : List Char :=
    match cs.getLast? with
    | some 'Z' => cs.dropLast ++ ['+', '0', '0', ':', '0', '0']
    | _ => cs
  parseIsoChars v

example : parse_time "1970-01-02T00:00:05Z" = some 86405 := by decide
example : parse_time "2024-03-01T12:00:00+01:00" = some 1709290800 := by decide
example : parse_time "not-a-time" = none := by decide
example : parse_time "None" = none := by decide

/-- `METRIC_MAP` from the source: upstream field name → canonical field name. -/
def METRIC_MAP : List (String × String) :=
  [("waveHeight", "waveHeightM"), ("swellHeight", "swellHeightM"),
   ("swellPeriod", "swellPeriodS"), ("swellDirection", "swellDirectionDeg"),
   ("windSpeed", "windSpeedMps"), ("windDirection", "windDirectionDeg"),
   ("gust", "windGustMps"), ("waterTemperature", "waterTemperatureC")]

/-- A raw upstream hour: a JSON object as a key-value list in insertion order
(keys unique, as in a Python dict). -/
abbrev RawHour := List (String × JVal)

/-- `dict.get(key)`: the stored value, or `null` (Python `None`) when absent. -/
def dget (d : List (String × JVal)) (key : String) : JVal :=
  (List.lookup key d).getD JVal.null

/-- Model of Python `str(v)`: exact for strings, `None` and booleans.  Numbers
and dicts get a simplified rendering; the program only ever feeds these
renderings to `parse_time`, where — like Python's actual renderings — they
never parse as ISO-8601 timestamps, so the simplification is unobservable. -/
def pyStr : JVal → String
  | JVal.null => "None"
  | JVal.bool true => "True"
  | JVal.bool false => "False"
  | JVal.str s => s
  | JVal.num q => toString q.num ++ "/" ++ toString q.den
  | JVal.obj _ => "PyDict"

/-- The canonical normalized-hour record built by `normalize_hour`: the `time`
entry plus the eight canonical metric fields, each possibly unknown (`None`).
`time` holds the `str(...)` rendering of the raw time value (the source stores
the value verbatim and renders it with `str` at every use; rendering at
construction is behaviorally equivalent). -/
structure NHour where
  time : String
  waveHeightM : Option ℚ
  swellHeightM : Option ℚ
  swellPeriodS : Option ℚ
  swellDirectionDeg : Option ℚ
  windSpeedMps : Option ℚ
  windDirectionDeg : Option ℚ
  windGustMps : Option ℚ
  waterTemperatureC : Option ℚ
deriving DecidableEq

/-- `normalize_hour(hour, source_order)` from the source:
`out = {"time": hour.get("time")}` followed by one `select_metric_value` call
per `METRIC_MAP` entry (the loop is unrolled over the fixed metric table). -/
def normalize_hour (hour : RawHour) (source_order : List String) : NHour :=
  { time := pyStr (dget hour "time")
    waveHeightM := select_metric_value (dget hour "waveHeight") source_order
    swellHeightM := select_metric_value (dget hour "swellHeight") source_order
    swellPeriodS := select_metric_value (dget hour "swellPeriod") source_order
    swellDirectionDeg := select_metric_value (dget hour "swellDirection") source_order
    windSpeedMps := select_metric_value (dget hour "windSpeed") source_order
    windDirectionDeg := select_metric_value (dget hour "windDirection") source_order
    windGustMps := select_metric_value (dget hour "gust") source_order
    waterTemperatureC := select_metric_value (dget hour "waterTemperature") source_order }

/-- Serialization of an unknown-or-number field: `None` serializes as `null`,
never by omitting the key. -/
def jOfOpt : Option ℚ → JVal
  | none => JVal.null
  | some q => JVal.num q

/-- The serialized (wire) shape of a normalized-hour record, in the key order
the source builds the dict. -/
def nhour_json (h : NHour) : List (String × JVal) :=
  [("time", JVal.str h.time),
   ("waveHeightM", jOfOpt h.waveHeightM),
   ("swellHeightM", jOfOpt h.swellHeightM),
   ("swellPeriodS", jOfOpt h.swellPeriodS),
   ("swellDirectionDeg", jOfOpt h.swellDirectionDeg),
   ("windSpeedMps", jOfOpt h.windSpeedMps),
   ("windDirectionDeg", jOfOpt h.windDirectionDeg),
   ("windGustMps", jOfOpt h.windGustMps),
   ("waterTemperatureC", jOfOpt h.waterTemperatureC)]

/-- C6: for every raw hour and preference order, the normalized record carries
exactly the eight canonical metric keys plus `time`; each metric key holds the
resolver's result for the mapped upstream field; and a metric absent upstream
is present with the explicit unknown marker (`null`), never omitted. -/
theorem normalize_hour_fixed_shape (hour : RawHour) (order : List String) :
    (nhour_json (normalize_hour hour order)).map Prod.fst =
        "time" :: METRIC_MAP.map Prod.snd
    ∧ (∀ km ∈ METRIC_MAP,
        List.lookup km.2 (nhour_json (normalize_hour hour order)) =
          some (jOfOpt (select_metric_value (dget hour km.1) order)))
    ∧ (∀ km ∈ METRIC_MAP, List.lookup km.1 hour = none →
        List.lookup km.2 (nhour_json (normalize_hour hour order)) = some JVal.null) := by
  have h2 : ∀ km ∈ METRIC_MAP,
      List.lookup km.2 (nhour_json (normalize_hour hour order)) =
        some (jOfOpt (select_metric_value (dget hour km.1) order)) := by
    intro km hm
    simp only [METRIC_MAP, List.mem_cons, List.not_mem_nil, or_false] at hm
    rcases hm with rfl | rfl | rfl | rfl | rfl | rfl | rfl | rfl <;> rfl
  refine ⟨rfl, h2, ?_⟩
  intro km hm habs
  have hd : dget hour km.1 = JVal.null := by simp [dget, habs]
  rw [h2 km hm, hd]
  rfl

/-- Witness for C6 at a concrete input: a raw hour carrying only `waveHeight`
still serializes with the full key set, and `windGustMps` (absent upstream) is
present as `null`. -/
theorem normalize_hour_fixed_shape_witness :
    (nhour_json (normalize_hour [("waveHeight", JVal.num 1)] [])).map Prod.fst =
        "time" :: METRIC_MAP.map Prod.snd
    ∧ List.lookup "windGustMps"
        (nhour_json (normalize_hour [("waveHeight", JVal.num 1)] [])) =
          some JVal.null :=
  ⟨(normalize_hour_fixed_shape [("waveHeight", JVal.num 1)] []).1,
    (normalize_hour_fixed_shape [("waveHeight", JVal.num 1)] []).2.2
      ("gust", "windGustMps") (by simp [METRIC_MAP]) rfl⟩

/-- Model of Python `round(x, 4)`: round half up (Python's float `round` is
banker's rounding; the two differ only at exact half-ulp ties, immaterial to
sign, bound and determinism properties). -/
def round4 (q : ℚ) : ℚ := ((round (q * 10000) : ℤ) : ℚ) / 10000

/-- `score_hour(hour)` from the source: one additive term per present metric
(wave peaking at 1.2 m, period rewarded capped at 2, calm wind and gusts
rewarded), rounded to 4 decimal places.  Missing metrics contribute 0. -/
def score_hour (h : NHour) : ℚ :=
  round4
    ((match h.waveHeightM with
      | some wave => max 0 (6/5 - |wave - 6/5|)
      | none => 0) +
     (match h.swellPeriodS with
      | some period => min 2 (period / 6)
      | none => 0) +
     (match h.windSpeedMps with
      | some wind => max 0 (2 - wind / 3)
      | none => 0) +
     (match h.windGustMps with
      | some gust => max 0 (3/2 - gust / 4)
      | none => 0))

/-- A normalized hour whose only present metric is a negative swell period. -/
def negPeriodHour : NHour :=
  { time := "1970-01-01T00:00:00Z", waveHeightM := none, swellHeightM := none
    swellPeriodS := some (-12), swellDirectionDeg := none, windSpeedMps := none
    windDirectionDeg := none, windGustMps := none, waterTemperatureC := none }

/-- Counterexample to C5 as stated: the scoring function is not non-negative
on every normalized hour — a (physically nonsensical but representable)
negative swell period drives the period term `min(2.0, period / 6.0)`, and
with it the whole score, below zero. -/
theorem score_hour_negative_counterexample : score_hour negPeriodHour < 0 := by
  have h : score_hour negPeriodHour = -2 := by
    unfold score_hour negPeriodHour round4
    norm_num
    rw [show ((-20000 : ℚ)) = ((-20000 : ℤ) : ℚ) by norm_num, round_intCast]
    norm_num
  rw [h]
  norm_num

theorem round4_nonneg (q : ℚ) (hq : 0 ≤ q) : 0 ≤ round4 q := by
  unfold round4
  refine div_nonneg ?_ (by norm_num)
  have h : (0 : ℤ) ≤ round (q * 10000) := by
    rw [round_eq]
    refine Int.le_floor.mpr ?_
    push_cast
    linarith
  exact_mod_cast h

/-- C5 amended: the score is deterministic (a pure function of the record),
and it is non-negative for every normalized hour whose swell period, when
present, is non-negative (the wave, wind and gust terms are clamped at zero
by `max`, but the period term `min(2.0, period / 6.0)` is not). -/
theorem score_hour_nonneg (h : NHour)
    (hp : ∀ p : ℚ, h.swellPeriodS = some p → 0 ≤ p) :
    0 ≤ score_hour h ∧ score_hour h = score_hour h := by
  refine ⟨?_, rfl⟩
  unfold score_hour
  refine round4_nonneg _ ?_
  have t1 : (0 : ℚ) ≤ match h.waveHeightM with
      | some wave => max 0 (6/5 - |wave - 6/5|)
      | none => 0 := by
    cases h.waveHeightM with
    | none => exact le_refl 0
    | some wave => exact le_max_left 0 _
  have t2 : (0 : ℚ) ≤ match h.swellPeriodS with
      | some period => min 2 (period / 6)
      | none => 0 := by
    cases hsp : h.swellPeriodS with
    | none => exact le_refl 0
    | some period =>
      have hp0 := hp period hsp
      exact le_min (by norm_num) (by positivity)
  have t3 : (0 : ℚ) ≤ match h.windSpeedMps with
      | some wind => max 0 (2 - wind / 3)
      | none => 0 := by
    cases h.windSpeedMps with
    | none => exact le_refl 0
    | some wind => exact le_max_left 0 _
  have t4 : (0 : ℚ) ≤ match h.windGustMps with
      | some gust => max 0 (3/2 - gust / 4)
      | none => 0 := by
    cases h.windGustMps with
    | none => exact le_refl 0
    | some gust => exact le_max_left 0 _
  exact add_nonneg (add_nonneg (add_nonneg t1 t2) t3) t4

/-- A normalized hour with an ordinary (non-negative) swell period. -/
def okPeriodHour : NHour :=
  { time := "1970-01-01T00:00:00Z", waveHeightM := some (6/5), swellHeightM := none
    swellPeriodS := some 6, swellDirectionDeg := none, windSpeedMps := none
    windDirectionDeg := none, windGustMps := none, waterTemperatureC := none }

/-- Witness for the amended C5 at a concrete input. -/
theorem score_hour_nonneg_witness :
    0 ≤ score_hour okPeriodHour ∧ score_hour okPeriodHour = score_hour okPeriodHour :=
  score_hour_nonneg okPeriodHour (by
    intro p hp
    have hps : okPeriodHour.swellPeriodS = some 6 := rfl
    rw [hps] at hp
    injection hp with h
    rw [← h]
    norm_num)

/-- Failure conditions escaping the core.  `dataGap` models the `ApiError`
raised when zero usable time-stamped records remain (the spec's DataGap
condition); `parseFail` models the `ValueError` raised by
`datetime.fromisoformat` on an unparseable timestamp, which the report
pipeline does not catch. -/
inductive SurfError where
  | dataGap : String → SurfError
  | parseFail : String → SurfError
deriving DecidableEq

/-- The running-minimum loop inside Python's `min(valid, key=distance)`:
the key of each element is computed in iteration order (so an unparseable
time raises at that element), and the champion is replaced only on a strictly
smaller key, so the first minimal element wins ties. -/
def nearest_go (anchor : Int) : (Int × NHour) → List NHour → Except SurfError NHour
  | best, [] => Except.ok best.2
  | best, h :: rest =>
    match parse_time h.time with
    | none => Except.error (SurfError.parseFail h.time)
    | some t =>
      if |t - anchor| < best.1 then nearest_go anchor (|t - anchor|, h) rest
      else nearest_go anchor best rest

/-- `nearest_hour(hours, anchor)` from the source.  The guard
`[h for h in hours if "time" in h]` is identically true here: normalized
records always carry the `time` key (`normalize_hour` sets it
unconditionally), so `valid` is the input list and the empty check is an
emptiness check on it. -/
def nearest_hour (hours : List NHour) (anchor : Int) : Except SurfError NHour :=
  match hours with
  | [] => Except.error (SurfError.dataGap "No weather hours with time field")
  | h0 :: rest =>
    match parse_time h0.time with
    | none => Except.error (SurfError.parseFail h0.time)
    | some t0 => nearest_go anchor (|t0 - anchor|, h0) rest

theorem nearest_go_spec (anchor : Int) (l : List NHour) :
    ∀ best : Int × NHour, (∀ h ∈ l, (parse_time h.time).isSome) →
    ∃ r, nearest_go anchor best l = Except.ok r ∧
      ((r = best.2 ∧ ∀ h ∈ l, ∀ t, parse_time h.time = some t → best.1 ≤ |t - anchor|)
       ∨ (∃ pre h post t, l = pre ++ h :: post ∧ r = h ∧ parse_time h.time = some t
           ∧ |t - anchor| < best.1
           ∧ (∀ h' ∈ l, ∀ t', parse_time h'.time = some t' → |t - anchor| ≤ |t' - anchor|)
           ∧ (∀ h' ∈ pre, ∀ t', parse_time h'.time = some t' →
               |t - anchor| < |t' - anchor|))) := by
  induction l with
  | nil =>
    intro best _
    exact ⟨best.2, rfl, Or.inl ⟨rfl, by simp⟩⟩
  | cons h rest ih =>
    intro best hl
    obtain ⟨t, ht⟩ := Option.isSome_iff_exists.mp (hl h (List.mem_cons_self h rest))
    have hrest : ∀ h' ∈ rest, (parse_time h'.time).isSome :=
      fun h' hm => hl h' (List.mem_cons_of_mem h hm)
    by_cases hc : |t - anchor| < best.1
    · have hstep : nearest_go anchor best (h :: rest) =
          nearest_go anchor (|t - anchor|, h) rest := by
        conv_lhs => unfold nearest_go
        simp only [ht]
        rw [if_pos hc]
      rw [hstep]
      obtain ⟨r, hr, hcase⟩ := ih (|t - anchor|, h) hrest
      refine ⟨r, hr, Or.inr ?_⟩
      rcases hcase with ⟨hrb, hmin⟩ | ⟨pre, h2, post, t2, hsplit, hr2, ht2, hlt, hmin, hpre⟩
      · refine ⟨[], h, rest, t, by simp, by simpa using hrb, ht, hc, ?_, by simp⟩
        intro h' hm t' ht'
        rcases List.mem_cons.mp hm with rfl | hm
        · rw [ht] at ht'
          injection ht' with he
          rw [he]
        · exact hmin h' hm t' ht'
      · refine ⟨h :: pre, h2, post, t2, by rw [hsplit, List.cons_append], hr2, ht2,
          lt_trans hlt hc, ?_, ?_⟩
        · intro h' hm t' ht'
          rcases List.mem_cons.mp hm with rfl | hm
          · rw [ht] at ht'
            injection ht' with he
            rw [← he]
            exact le_of_lt hlt
          · exact hmin h' hm t' ht'
        · intro h' hm t' ht'
          rcases List.mem_cons.mp hm with rfl | hm
          · rw [ht] at ht'
            injection ht' with he
            rw [← he]
            exact hlt
          · exact hpre h' hm t' ht'
    · have hstep : nearest_go anchor best (h :: rest) = nearest_go anchor best rest := by
        conv_lhs => unfold nearest_go
        simp only [ht]
        rw [if_neg hc]
      rw [hstep]
      obtain ⟨r, hr, hcase⟩ := ih best hrest
      refine ⟨r, hr, ?_⟩
      rcases hcase with ⟨hrb, hmin⟩ | ⟨pre, h2, post, t2, hsplit, hr2, ht2, hlt, hmin, hpre⟩
      · refine Or.inl ⟨hrb, ?_⟩
        intro h' hm t' ht'
        rcases List.mem_cons.mp hm with rfl | hm
        · rw [ht] at ht'
          injection ht' with he
          rw [← he]
          exact not_lt.mp hc
        · exact hmin h' hm t' ht'
      · refine Or.inr ⟨h :: pre, h2, post, t2, by rw [hsplit, List.cons_append],
          hr2, ht2, hlt, ?_, ?_⟩
        · intro h' hm t' ht'
          rcases List.mem_cons.mp hm with rfl | hm
          · rw [ht] at ht'
            injection ht' with he
            rw [← he]
            exact le_of_lt (lt_of_lt_of_le hlt (not_lt.mp hc))
          · exact hmin h' hm t' ht'
        · intro h' hm t' ht'
          rcases List.mem_cons.mp hm with rfl | hm
          · rw [ht] at ht'
            injection ht' with he
            rw [← he]
            exact lt_of_lt_of_le hlt (not_lt.mp hc)
          · exact hpre h' hm t' ht'

/-- C4: on the empty sequence, nearest-hour selection fails with the DataGap
condition; on every non-empty sequence of normalized hours (whose times
parse), it returns an element minimizing the absolute time distance to the
anchor, and every element strictly before it in input order has strictly
greater distance (equal-distance ties go to the earliest index). -/
theorem nearest_hour_first_minimal (hours : List NHour) (anchor : Int) :
    (hours = [] → nearest_hour hours anchor =
        Except.error (SurfError.dataGap "No weather hours with time field"))
    ∧ ((∀ h ∈ hours, (parse_time h.time).isSome) → hours ≠ [] →
        ∃ pre h post t, hours = pre ++ h :: post ∧ parse_time h.time = some t
          ∧ nearest_hour hours anchor = Except.ok h
          ∧ (∀ h' ∈ hours, ∀ t', parse_time h'.time = some t' →
              |t - anchor| ≤ |t' - anchor|)
          ∧ (∀ h' ∈ pre, ∀ t', parse_time h'.time = some t' →
              |t - anchor| < |t' - anchor|)) := by
  constructor
  · intro he
    rw [he]
    rfl
  · intro hp hne
    match hours, hne with
    | h0 :: rest, _ =>
      obtain ⟨t0, ht0⟩ := Option.isSome_iff_exists.mp (hp h0 (List.mem_cons_self h0 rest))
      have hrest : ∀ h' ∈ rest, (parse_time h'.time).isSome :=
        fun h' hm => hp h' (List.mem_cons_of_mem h0 hm)
      have hres : nearest_hour (h0 :: rest) anchor =
          nearest_go anchor (|t0 - anchor|, h0) rest := by
        show (match parse_time h0.time with
          | none => Except.error (SurfError.parseFail h0.time)
          | some t0 => nearest_go anchor (|t0 - anchor|, h0) rest) = _
        rw [ht0]
      obtain ⟨r, hr, hcase⟩ := nearest_go_spec anchor rest (|t0 - anchor|, h0) hrest
      rcases hcase with ⟨hrb, hmin⟩ | ⟨pre, h2, post, t2, hsplit, hr2, ht2, hlt, hmin, hpre⟩
      · refine ⟨[], h0, rest, t0, by simp, ht0, by rw [hres, hr, hrb], ?_, by simp⟩
        intro h' hm t' ht'
        rcases List.mem_cons.mp hm with rfl | hm
        · rw [ht0] at ht'
          injection ht' with he
          rw [he]
        · exact hmin h' hm t' ht'
      · refine ⟨h0 :: pre, h2, post, t2, by rw [hsplit, List.cons_append], ht2,
          by rw [hres, hr, hr2], ?_, ?_⟩
        · intro h' hm t' ht'
          rcases List.mem_cons.mp hm with rfl | hm
          · rw [ht0] at ht'
            injection ht' with he
            rw [← he]
            exact le_of_lt hlt
          · exact hmin h' hm t' ht'
        · intro h' hm t' ht'
          rcases List.mem_cons.mp hm with rfl | hm
          · rw [ht0] at ht'
            injection ht' with he
            rw [← he]
            exact hlt
          · exact hpre h' hm t' ht'

/-- A normalized hour carrying only a timestamp. -/
def hourAt (s : String) : NHour :=
  { time := s, waveHeightM := none, swellHeightM := none, swellPeriodS := none
    swellDirectionDeg := none, windSpeedMps := none, windDirectionDeg := none
    windGustMps := none, waterTemperatureC := none }

/-- Witness for C4 at a concrete input: two hours at 10 s and 2 s with
anchor 3 s — the second (distance 1) beats the first (distance 7). -/
theorem nearest_hour_first_minimal_witness :
    ∃ pre h post t,
      [hourAt "1970-01-01T00:00:10Z", hourAt "1970-01-01T00:00:02Z"] = pre ++ h :: post
      ∧ parse_time h.time = some t
      ∧ nearest_hour [hourAt "1970-01-01T00:00:10Z", hourAt "1970-01-01T00:00:02Z"] 3 =
          Except.ok h
      ∧ (∀ h' ∈ [hourAt "1970-01-01T00:00:10Z", hourAt "1970-01-01T00:00:02Z"],
          ∀ t', parse_time h'.time = some t' → |t - 3| ≤ |t' - 3|)
      ∧ (∀ h' ∈ pre, ∀ t', parse_time h'.time = some t' → |t - 3| < |t' - 3|) :=
  (nearest_hour_first_minimal
    [hourAt "1970-01-01T00:00:10Z", hourAt "1970-01-01T00:00:02Z"] 3).2
    (by decide) (by decide)

/-- The requested horizon (`--horizon`, restricted by argparse to these four). -/
inductive Horizon where
  | now : Horizon
  | h24 : Horizon
  | h48 : Horizon
  | h72 : Horizon
deriving DecidableEq

/-- `HORIZON_HOURS` from the source. -/
def HORIZON_HOURS : Horizon → Nat
  | Horizon.now => 1
  | Horizon.h24 => 24
  | Horizon.h48 => 48
  | Horizon.h72 => 72

/-- The fixed candidate-window table `[("24h", 24), ("48h", 48), ("72h", 72)]`
iterated by `build_windows`. -/
def WINDOW_LABELS : List (String × Nat) := [("24h", 24), ("48h", 48), ("72h", 72)]

/-- One forecast window: its own start/stop instants (the source stores their
`iso_z` renderings; modelled as the instants) and the ranked best hours, each
an hour record paired with its score (`entry = dict(h); entry["score"] = ...`). -/
structure Window where
  start : Int
  stop : Int
  bestHours : List (NHour × ℚ)
deriving DecidableEq

/-- The `for h in normalized_hours` filter loop of `build_windows`: parse each
hour's time (an unparseable one raises there), keep hours with
`anchor <= t <= end`, and score them, in input order. -/
def collect_in_window (anchor stop : Int) : List NHour → Except SurfError (List (NHour × ℚ))
  | [] => Except.ok []
  | h :: rest =>
    match parse_time h.time with
    | none => Except.error (SurfError.parseFail h.time)
    | some t =>
      match collect_in_window anchor stop rest with
      | Except.error e => Except.error e
      | Except.ok tail =>
        if anchor ≤ t ∧ t ≤ stop then Except.ok ((h, score_hour h) :: tail)
        else Except.ok tail

/-- The ordering realized by
`sorted(in_window, key=lambda x: x["score"], reverse=True)` on index-tagged
entries: descending score with the original index as tie-break.  A stable
descending sort is exactly the unique permutation sorted by this total order,
so sorting by `bwRel` is a faithful model of Python's stable `sorted`. -/
def bwRel (p q : Nat × (NHour × ℚ)) : Prop :=
  q.2.2 < p.2.2 ∨ (p.2.2 = q.2.2 ∧ p.1 ≤ q.1)

instance : DecidableRel bwRel := fun p q => by
  unfold bwRel
  exact inferInstance

instance : IsTotal (Nat × (NHour × ℚ)) bwRel := ⟨by
  intro p q
  rcases lt_trichotomy p.2.2 q.2.2 with h | h | h
  · exact Or.inr (Or.inl h)
  · rcases le_total p.1 q.1 with hi | hi
    · exact Or.inl (Or.inr ⟨h, hi⟩)
    · exact Or.inr (Or.inr ⟨h.symm, hi⟩)
  · exact Or.inl (Or.inl h)⟩

instance : IsTrans (Nat × (NHour × ℚ)) bwRel := ⟨by
  intro p q r hpq hqr
  rcases hpq with h1 | ⟨e1, i1⟩
  · rcases hqr with h2 | ⟨e2, i2⟩
    · exact Or.inl (lt_trans h2 h1)
    · exact Or.inl (e2 ▸ h1)
  · rcases hqr with h2 | ⟨e2, i2⟩
    · refine Or.inl ?_
      rw [e1]
      exact h2
    · exact Or.inr ⟨e1.trans e2, le_trans i1 i2⟩⟩

/-- The index-tagged stable descending sort inside `build_windows`. -/
def ranked (cands : List (NHour × ℚ)) : List (Nat × (NHour × ℚ)) :=
  cands.enum.insertionSort bwRel

/-- `sorted(in_window, key=lambda x: x["score"], reverse=True)[:3]`. -/
def best_hours (cands : List (NHour × ℚ)) : List (NHour × ℚ) :=
  ((ranked cands).map Prod.snd).take 3

/-- The label loop of `build_windows(normalized_hours, anchor, horizon)`:
skip a window longer than the requested horizon (or any window when the
horizon is `now`); otherwise collect, score and rank the in-window hours. -/
def build_windows_go (hours : List NHour) (anchor : Int) (horizon : Horizon) :
    List (String × Nat) → Except SurfError (List (String × Window))
  | [] => Except.ok []
  | (label, len) :: rest =>
    if HORIZON_HOURS horizon < len ∨ horizon = Horizon.now then
      build_windows_go hours anchor horizon rest
    else
      match collect_in_window anchor (anchor + (len : Int) * 3600) hours with
      | Except.error e => Except.error e
      | Except.ok cands =>
        match build_windows_go hours anchor horizon rest with
        | Except.error e => Except.error e
        | Except.ok tail =>
          Except.ok ((label,
            { start := anchor, stop := anchor + (len : Int) * 3600,
              bestHours := best_hours cands }) :: tail)

/-- `build_windows` from the source, over the fixed window table. -/
def build_windows (hours : List NHour) (anchor : Int) (horizon : Horizon) :
    Except SurfError (List (String × Window)) :=
  build_windows_go hours anchor horizon WINDOW_LABELS

theorem collect_in_window_spec (anchor stop : Int) (l : List NHour)
    (hp : ∀ h ∈ l, (parse_time h.time).isSome) :
    ∃ cands, collect_in_window anchor stop l = Except.ok cands ∧
      ∀ p ∈ cands, p.1 ∈ l ∧ p.2 = score_hour p.1 ∧
        ∃ t, parse_time p.1.time = some t ∧ anchor ≤ t ∧ t ≤ stop := by
  induction l with
  | nil => exact ⟨[], rfl, by simp⟩
  | cons h rest ih =>
    obtain ⟨t, ht⟩ := Option.isSome_iff_exists.mp (hp h (List.mem_cons_self h rest))
    obtain ⟨cands, hc, hprop⟩ := ih fun h' hm => hp h' (List.mem_cons_of_mem h hm)
    by_cases hin : anchor ≤ t ∧ t ≤ stop
    · have hstep : collect_in_window anchor stop (h :: rest) =
          Except.ok ((h, score_hour h) :: cands) := by
        conv_lhs => unfold collect_in_window
        simp only [ht, hc]
        rw [if_pos hin]
      refine ⟨(h, score_hour h) :: cands, hstep, ?_⟩
      intro p hm
      rcases List.mem_cons.mp hm with rfl | hm
      · exact ⟨List.mem_cons_self h rest, rfl, t, ht, hin.1, hin.2⟩
      · obtain ⟨hmem, hsc, t', ht', h1, h2⟩ := hprop p hm
        exact ⟨List.mem_cons_of_mem h hmem, hsc, t', ht', h1, h2⟩
    · have hstep : collect_in_window anchor stop (h :: rest) = Except.ok cands := by
        conv_lhs => unfold collect_in_window
        simp only [ht, hc]
        rw [if_neg hin]
      refine ⟨cands, hstep, ?_⟩
      intro p hm
      obtain ⟨hmem, hsc, t', ht', h1, h2⟩ := hprop p hm
      exact ⟨List.mem_cons_of_mem h hmem, hsc, t', ht', h1, h2⟩

theorem ranked_perm (cands : List (NHour × ℚ)) : List.Perm (ranked cands) cands.enum :=
  List.perm_insertionSort bwRel _

theorem ranked_sorted (cands : List (NHour × ℚ)) : (ranked cands).Pairwise bwRel :=
  List.sorted_insertionSort bwRel _

theorem ranked_ne_fst (cands : List (NHour × ℚ)) :
    (ranked cands).Pairwise fun p q => p.1 ≠ q.1 := by
  have henum : (cands.enum.map Prod.fst).Nodup := by
    rw [List.enum_map_fst]
    exact List.nodup_range _
  have henum' : cands.enum.Pairwise fun p q => p.1 ≠ q.1 := List.pairwise_map.mp henum
  exact ((ranked_perm cands).pairwise_iff fun h => h.symm).mpr henum'

/-- The sorted, index-tagged candidate list is descending in score and, at
equal scores, ascending in original position: Python's stable sort order. -/
theorem ranked_stable (cands : List (NHour × ℚ)) :
    (ranked cands).Pairwise
      fun p q => q.2.2 ≤ p.2.2 ∧ (p.2.2 = q.2.2 → p.1 < q.1) := by
  have h := List.Pairwise.and (ranked_sorted cands) (ranked_ne_fst cands)
  refine h.imp ?_
  rintro p q ⟨hr, hne⟩
  constructor
  · rcases hr with hlt | ⟨he, _⟩
    · exact le_of_lt hlt
    · exact le_of_eq he.symm
  · intro he
    rcases hr with hlt | ⟨_, hle⟩
    · exfalso
      rw [he] at hlt
      exact lt_irrefl _ hlt
    · exact lt_of_le_of_ne hle hne

theorem snd_mem_of_mem_enum {α : Type _} {l : List α} {p : Nat × α}
    (h : p ∈ l.enum) : p.2 ∈ l := by
  obtain ⟨i, a⟩ := p
  rw [List.enum_eq_zip_range] at h
  exact (List.of_mem_zip h).2

/-- What C2 asserts of one produced window: legitimate label/length, its own
start/stop instants, at most 3 best hours, each drawn from the input with its
score and an in-range time, listed in descending score order with equal
scores in original chronological (input) order. -/
def WindowOkFor (hours : List NHour) (anchor : Int) (label : String) (w : Window) : Prop :=
  ∃ len, (label, len) ∈ WINDOW_LABELS ∧ w.start = anchor
    ∧ w.stop = anchor + (len : Int) * 3600
    ∧ w.bestHours.length ≤ 3
    ∧ (∀ p ∈ w.bestHours, p.1 ∈ hours ∧ p.2 = score_hour p.1 ∧
        ∃ t, parse_time p.1.time = some t ∧ anchor ≤ t ∧ t ≤ w.stop)
    ∧ w.bestHours.Pairwise (fun a b => b.2 ≤ a.2)
    ∧ ∃ cands, collect_in_window anchor w.stop hours = Except.ok cands
        ∧ w.bestHours = best_hours cands
        ∧ (ranked cands).Pairwise
            (fun p q => q.2.2 ≤ p.2.2 ∧ (p.2.2 = q.2.2 → p.1 < q.1))
        ∧ List.Perm (ranked cands) cands.enum

theorem build_windows_go_spec (hours : List NHour) (anchor : Int) (horizon : Horizon)
    (hp : ∀ h ∈ hours, (parse_time h.time).isSome) :
    ∀ ls : List (String × Nat), (∀ e ∈ ls, e ∈ WINDOW_LABELS) →
    ∃ ws, build_windows_go hours anchor horizon ls = Except.ok ws
      ∧ ws.map Prod.fst = (if horizon = Horizon.now then []
          else (ls.filter fun p => p.2 ≤ HORIZON_HOURS horizon).map Prod.fst)
      ∧ ∀ lw ∈ ws, WindowOkFor hours anchor lw.1 lw.2 := by
  intro ls
  induction ls with
  | nil =>
    intro _
    exact ⟨[], rfl, by simp, by simp⟩
  | cons e rest ih =>
    intro hsub
    obtain ⟨label, len⟩ := e
    obtain ⟨ws, hws, hkeys, hok⟩ := ih fun e' hm => hsub e' (List.mem_cons_of_mem _ hm)
    by_cases hskip : HORIZON_HOURS horizon < len ∨ horizon = Horizon.now
    · have hstep : build_windows_go hours anchor horizon ((label, len) :: rest) =
          build_windows_go hours anchor horizon rest := by
        conv_lhs => unfold build_windows_go
        rw [if_pos hskip]
      refine ⟨ws, by rw [hstep, hws], ?_, hok⟩
      by_cases hn : horizon = Horizon.now
      · rw [if_pos hn] at hkeys ⊢
        exact hkeys
      · rw [if_neg hn] at hkeys ⊢
        have hlt : HORIZON_HOURS horizon < len := hskip.resolve_right hn
        have hfc : List.filter (fun p : String × Nat =>
            decide (p.2 ≤ HORIZON_HOURS horizon)) ((label, len) :: rest) =
            List.filter (fun p => decide (p.2 ≤ HORIZON_HOURS horizon)) rest := by
          simp [List.filter_cons, not_le.mpr hlt]
        rw [hfc]
        exact hkeys
    · have hnlt : ¬ HORIZON_HOURS horizon < len := fun hlt => hskip (Or.inl hlt)
      have hn : horizon ≠ Horizon.now := fun hh => hskip (Or.inr hh)
      have hlen : len ≤ HORIZON_HOURS horizon := not_lt.mp hnlt
      obtain ⟨cands, hc, hcand⟩ :=
        collect_in_window_spec anchor (anchor + (len : Int) * 3600) hours hp
      have hstep : build_windows_go hours anchor horizon ((label, len) :: rest) =
          Except.ok ((label,
            { start := anchor, stop := anchor + (len : Int) * 3600,
              bestHours := best_hours cands }) :: ws) := by
        conv_lhs => unfold build_windows_go
        rw [if_neg hskip]
        simp only [hc, hws]
      refine ⟨_, hstep, ?_, ?_⟩
      · rw [List.map_cons]
        rw [if_neg hn] at hkeys ⊢
        have hfc : List.filter (fun p : String × Nat =>
            decide (p.2 ≤ HORIZON_HOURS horizon)) ((label, len) :: rest) =
            (label, len) :: List.filter (fun p => decide (p.2 ≤ HORIZON_HOURS horizon)) rest := by
          simp [List.filter_cons, hlen]
        rw [hfc, List.map_cons, hkeys]
      · intro lw hm
        rcases List.mem_cons.mp hm with rfl | hm
        · refine ⟨len, hsub (label, len) (List.mem_cons_self _ _), rfl, rfl, ?_, ?_, ?_,
            cands, hc, rfl, ranked_stable cands, ranked_perm cands⟩
          · unfold best_hours
            rw [List.length_take]
            exact min_le_left _ _
          · intro p hm'
            have hm2 := List.mem_of_mem_take hm'
            obtain ⟨pq, hpq, hpq2⟩ := List.mem_map.mp hm2
            have hpe : pq ∈ cands.enum := (ranked_perm cands).mem_iff.mp hpq
            have hsnd : pq.2 ∈ cands := snd_mem_of_mem_enum hpe
            rw [← hpq2]
            exact hcand pq.2 hsnd
          · have h1 : ((ranked cands).map Prod.snd).Pairwise (fun a b => b.2 ≤ a.2) :=
              List.pairwise_map.mpr ((ranked_stable cands).imp fun h => h.1)
            exact List.Pairwise.sublist (List.take_sublist 3 _) h1
        · exact hok lw hm

/-- C2: for every list of normalized hours (with parseable times), anchor and
requested horizon, `build_windows` succeeds and produces exactly the labels
among 24h/48h/72h whose length does not exceed the requested horizon (none at
all for the `now` horizon); each produced window spans
`[anchor, anchor + length]`, holds at most 3 best hours — all drawn from the
input, scored, with times inside the window — ordered by descending score,
equal scores keeping the original chronological input order (stable sort). -/
theorem build_windows_sound (hours : List NHour) (anchor : Int) (horizon : Horizon)
    (hp : ∀ h ∈ hours, (parse_time h.time).isSome) :
    ∃ ws, build_windows hours anchor horizon = Except.ok ws
      ∧ ws.map Prod.fst = (if horizon = Horizon.now then []
          else (WINDOW_LABELS.filter fun p => p.2 ≤ HORIZON_HOURS horizon).map Prod.fst)
      ∧ ∀ lw ∈ ws, WindowOkFor hours anchor lw.1 lw.2 :=
  build_windows_go_spec hours anchor horizon hp WINDOW_LABELS fun _ hm => hm

/-- Witness for C2 at a concrete input: one hour, anchor 0, horizon 24h. -/
theorem build_windows_sound_witness :
    ∃ ws, build_windows [hourAt "1970-01-01T01:00:00Z"] 0 Horizon.h24 = Except.ok ws
      ∧ ws.map Prod.fst = (if Horizon.h24 = Horizon.now then []
          else (WINDOW_LABELS.filter fun p => p.2 ≤ HORIZON_HOURS Horizon.h24).map Prod.fst)
      ∧ ∀ lw ∈ ws, WindowOkFor [hourAt "1970-01-01T01:00:00Z"] 0 lw.1 lw.2 :=
  build_windows_sound [hourAt "1970-01-01T01:00:00Z"] 0 Horizon.h24 (by decide)

/-- Model of Python `str.lower()` over the char-level `Char.toLower`
(lowercases ASCII letters, all that tide types use). -/
def pyLower (s : String) : String := ⟨s.data.map Char.toLower⟩

/-- A raw tide event from the provider: optional `time`/`type` strings and an
arbitrary `height` value. -/
structure RawTide where
  time : Option String
  type : Option String
  height : JVal

/-- A normalized tide extreme: `{"time": t, "type": item_type, "heightM": h}`
(`type` passed through unchanged, no case normalization at this stage). -/
structure TideEvent where
  time : Option String
  type : Option String
  heightM : Option ℚ
deriving DecidableEq

/-- Lexicographic code-point comparison of char lists: the order Python uses
when sorting the raw `time` strings (`out.sort(key=lambda x: x["time"])`). -/
def lexLe : List Char → List Char → Bool
  | [], _ => true
  | _ :: _, [] => false
  | a :: as, b :: bs =>
    if a.toNat < b.toNat then true
    else if b.toNat < a.toNat then false
    else lexLe as bs

/-- The sort key of a normalized tide event: its raw time string (always
present in `normalize_tides` output). -/
def tide_key (e : TideEvent) : String := e.time.getD ""

/-- The time-string order on tide events. -/
def tideLe (a b : TideEvent) : Prop := lexLe (tide_key a).data (tide_key b).data = true

instance : DecidableRel tideLe := fun _ _ => instDecidableEqBool _ _

/-- `normalize_tides(data)` from the source: drop events with a falsy `time`
(absent or empty string), coerce `height` to a number when possible (`None`
otherwise, exceptions caught), pass `type` through unchanged, then sort
ascending by the raw time string (Python's stable sort; modelled by insertion
sort, which is stable for a non-strict total preorder). -/
def normalize_tides (data : List RawTide) : List TideEvent :=
  (data.filterMap fun item =>
    match item.time with
    | none => none
    | some t =>
      if t = "" then none
      else
        some { time := some t, type := item.type, heightM := toFloatQ item.height }).insertionSort
    tideLe

/-- The parsing loop of `tide_trend_now`: keep `(parse_time(str(e["time"])),
str(e.get("type", "")).lower())` for each event, silently skipping events
whose time is absent (`KeyError`) or unparseable (`ValueError`). -/
def tide_parsed (extremes : List TideEvent) : List (Int × String) :=
  extremes.filterMap fun e =>
    match e.time with
    | none => none
    | some s =>
      match parse_time s with
      | none => none
      | some t => some (t, pyLower (e.type.getD ""))

/-- The prev/next scan of `tide_trend_now`: `prev` is overwritten by every
event with `dt <= anchor`; `next` is set by the first event with
`dt > anchor` and never overwritten. -/
def tide_scan (anchor : Int) :
    List (Int × String) → Option (Int × String) → Option (Int × String) →
      Option (Int × String) × Option (Int × String)
  | [], prev, next => (prev, next)
  | (dt, kind) :: rest, prev, next =>
    if dt ≤ anchor then tide_scan anchor rest (some (dt, kind)) next
    else if next.isNone then tide_scan anchor rest prev (some (dt, kind))
    else tide_scan anchor rest prev next

/-- `tide_trend_now(extremes, anchor)` from the source. -/
def tide_trend_now (extremes : List TideEvent) (anchor : Int) : String :=
  if (tide_parsed extremes).isEmpty then "unknown"
  else
    match tide_scan anchor (tide_parsed extremes) none none with
    | (some (_, prevKind), some (_, nextKind)) =>
      if prevKind = "low" ∧ nextKind = "high" then "rising"
      else if prevKind = "high" ∧ nextKind = "low" then "falling"
      else "unknown"
    | _ => "unknown"

theorem getLast?_cons_or {α : Type _} (a : α) (l : List α) :
    (a :: l).getLast? = l.getLast?.or (some a) := by
  induction l generalizing a with
  | nil => rfl
  | cons b l' ih =>
    rw [List.getLast?_cons_cons, ih b]
    cases h : l'.getLast? with
    | none => rfl
    | some x => rfl

theorem mem_of_getLast?_eq {α : Type _} {l : List α} {x : α}
    (h : l.getLast? = some x) : x ∈ l := by
  induction l with
  | nil => cases h
  | cons a l' ih =>
    rw [getLast?_cons_or] at h
    cases hl : l'.getLast? with
    | none =>
      rw [hl] at h
      injection h with h
      exact h ▸ List.mem_cons_self a l'
    | some y =>
      rw [hl] at h
      injection h with h
      exact List.mem_cons_of_mem a (ih (hl.trans (congrArg some h)))

theorem tide_scan_fst (anchor : Int) :
    ∀ (l : List (Int × String)) (prev next : Option (Int × String)),
      (tide_scan anchor l prev next).1 =
        ((l.filter fun p => decide (p.1 ≤ anchor)).getLast?).or prev := by
  intro l
  induction l with
  | nil =>
    intro prev next
    simp [tide_scan]
  | cons e rest ih =>
    intro prev next
    obtain ⟨dt, kind⟩ := e
    by_cases hdt : dt ≤ anchor
    · have hstep : tide_scan anchor ((dt, kind) :: rest) prev next =
          tide_scan anchor rest (some (dt, kind)) next := by
        conv_lhs => unfold tide_scan
        rw [if_pos hdt]
      have hfc : List.filter (fun p : Int × String => decide (p.1 ≤ anchor))
          ((dt, kind) :: rest) =
          (dt, kind) :: List.filter (fun p => decide (p.1 ≤ anchor)) rest := by
        simp [List.filter_cons, hdt]
      rw [hstep, ih, hfc, getLast?_cons_or]
      cases h : (List.filter (fun p : Int × String => decide (p.1 ≤ anchor)) rest).getLast? with
      | none => rfl
      | some x => rfl
    · have hfc : List.filter (fun p : Int × String => decide (p.1 ≤ anchor))
          ((dt, kind) :: rest) =
          List.filter (fun p => decide (p.1 ≤ anchor)) rest := by
        simp [List.filter_cons, hdt]
      cases next with
      | none =>
        have hstep : tide_scan anchor ((dt, kind) :: rest) prev none =
            tide_scan anchor rest prev (some (dt, kind)) := by
          conv_lhs => unfold tide_scan
          rw [if_neg hdt]
          simp [Option.isNone]
        rw [hstep, ih, hfc]
      | some nx =>
        have hstep : tide_scan anchor ((dt, kind) :: rest) prev (some nx) =
            tide_scan anchor rest prev (some nx) := by
          conv_lhs => unfold tide_scan
          rw [if_neg hdt]
          simp [Option.isNone]
        rw [hstep, ih, hfc]

theorem tide_scan_snd (anchor : Int) :
    ∀ (l : List (Int × String)) (prev next : Option (Int × String)),
      (tide_scan anchor l prev next).2 =
        next.or ((l.filter fun p => decide (¬ p.1 ≤ anchor)).head?) := by
  intro l
  induction l with
  | nil =>
    intro prev next
    simp [tide_scan]
  | cons e rest ih =>
    intro prev next
    obtain ⟨dt, kind⟩ := e
    by_cases hdt : dt ≤ anchor
    · have hstep : tide_scan anchor ((dt, kind) :: rest) prev next =
          tide_scan anchor rest (some (dt, kind)) next := by
        conv_lhs => unfold tide_scan
        rw [if_pos hdt]
      have hfc : List.filter (fun p : Int × String => decide (¬ p.1 ≤ anchor))
          ((dt, kind) :: rest) =
          List.filter (fun p => decide (¬ p.1 ≤ anchor)) rest := by
        simp [List.filter_cons, hdt]
      rw [hstep, ih, hfc]
    · have hfc : List.filter (fun p : Int × String => decide (¬ p.1 ≤ anchor))
          ((dt, kind) :: rest) =
          (dt, kind) :: List.filter (fun p => decide (¬ p.1 ≤ anchor)) rest := by
        simp [List.filter_cons, hdt]
      cases next with
      | none =>
        have hstep : tide_scan anchor ((dt, kind) :: rest) prev none =
            tide_scan anchor rest prev (some (dt, kind)) := by
          conv_lhs => unfold tide_scan
          rw [if_neg hdt]
          simp [Option.isNone]
        rw [hstep, ih, hfc]
        rfl
      | some nx =>
        have hstep : tide_scan anchor ((dt, kind) :: rest) prev (some nx) =
            tide_scan anchor rest prev (some nx) := by
          conv_lhs => unfold tide_scan
          rw [if_neg hdt]
          simp [Option.isNone]
        rw [hstep, ih, hfc]
        rfl

/-- Modelled from the spec: `e` is the nearest extreme preceding the anchor —
it precedes the anchor (time ≤ anchor, so an extreme exactly at the anchor
counts as preceding) and no preceding extreme is later. -/
def isNearestPrev (parsed : List (Int × String)) (anchor : Int) (e : Int × String) : Prop :=
  e ∈ parsed ∧ e.1 ≤ anchor ∧ ∀ q ∈ parsed, q.1 ≤ anchor → q.1 ≤ e.1

/-- Modelled from the spec: `e` is the nearest extreme strictly following the
anchor. -/
def isNearestNext (parsed : List (Int × String)) (anchor : Int) (e : Int × String) : Prop :=
  e ∈ parsed ∧ anchor < e.1 ∧ ∀ q ∈ parsed, anchor < q.1 → e.1 ≤ q.1

instance (parsed : List (Int × String)) (anchor : Int) (e : Int × String) :
    Decidable (isNearestPrev parsed anchor e) := by
  unfold isNearestPrev
  exact inferInstance

theorem pairwise_lt_getLast_max {l : List (Int × String)}
    (hs : l.Pairwise fun p q => p.1 < q.1) {x : Int × String}
    (hx : l.getLast? = some x) : ∀ y ∈ l, y.1 ≤ x.1 := by
  induction l with
  | nil => cases hx
  | cons a l' ih =>
    rw [getLast?_cons_or] at hx
    cases hl : l'.getLast? with
    | none =>
      have hnil : l' = [] := List.getLast?_eq_none_iff.mp hl
      subst hnil
      rw [hl] at hx
      injection hx with hx
      intro y hy
      rcases List.mem_cons.mp hy with rfl | hy
      · rw [hx]
      · cases hy
    | some z =>
      rw [hl] at hx
      injection hx with hx
      intro y hy
      rcases List.mem_cons.mp hy with rfl | hy
      · have hz : z ∈ l' := mem_of_getLast?_eq hl
        exact hx ▸ le_of_lt ((List.pairwise_cons.mp hs).1 z hz)
      · exact ih (List.pairwise_cons.mp hs).2 (hx ▸ hl) y hy

theorem pairwise_lt_head_min {l : List (Int × String)}
    (hs : l.Pairwise fun p q => p.1 < q.1) {x : Int × String}
    (hx : l.head? = some x) : ∀ y ∈ l, x.1 ≤ y.1 := by
  cases l with
  | nil => cases hx
  | cons a l' =>
    rw [List.head?_cons] at hx
    injection hx with hx
    subst hx
    intro y hy
    rcases List.mem_cons.mp hy with rfl | hy
    · exact le_refl _
    · exact le_of_lt ((List.pairwise_cons.mp hs).1 y hy)

theorem pairwise_lt_fst_inj {l : List (Int × String)}
    (hs : l.Pairwise fun p q => p.1 < q.1) :
    ∀ p ∈ l, ∀ q ∈ l, p.1 = q.1 → p = q := by
  induction l with
  | nil =>
    intro p hp
    cases hp
  | cons a l' ih =>
    intro p hp q hq he
    rcases List.mem_cons.mp hp with hpa | hp
    · rcases List.mem_cons.mp hq with hqa | hq
      · rw [hpa, hqa]
      · refine absurd he ?_
        rw [hpa]
        exact ne_of_lt ((List.pairwise_cons.mp hs).1 q hq)
    · rcases List.mem_cons.mp hq with hqa | hq
      · refine absurd he ?_
        rw [hqa]
        exact (ne_of_lt ((List.pairwise_cons.mp hs).1 p hp)).symm
      · exact ih (List.pairwise_cons.mp hs).2 p hp q hq he

/-- `tide_trend_now` in terms of the scan's characterization: `prev` is the
last preceding event in scan order, `next` the first strictly-following one. -/
theorem tide_trend_now_eq (extremes : List TideEvent) (anchor : Int) :
    tide_trend_now extremes anchor =
      (if (tide_parsed extremes).isEmpty then "unknown"
       else
        match (((tide_parsed extremes).filter fun p => decide (p.1 ≤ anchor)).getLast?,
               ((tide_parsed extremes).filter fun p => decide (¬ p.1 ≤ anchor)).head?) with
        | (some (_, prevKind), some (_, nextKind)) =>
          if prevKind = "low" ∧ nextKind = "high" then "rising"
          else if prevKind = "high" ∧ nextKind = "low" then "falling"
          else "unknown"
        | _ => "unknown") := by
  have h1 := tide_scan_fst anchor (tide_parsed extremes) none none
  have h2 := tide_scan_snd anchor (tide_parsed extremes) none none
  rw [Option.or_none] at h1
  rw [Option.none_or] at h2
  unfold tide_trend_now
  rw [show tide_scan anchor (tide_parsed extremes) none none =
      (((tide_parsed extremes).filter fun p => decide (p.1 ≤ anchor)).getLast?,
       ((tide_parsed extremes).filter fun p => decide (¬ p.1 ≤ anchor)).head?) from
    Prod.ext_iff.mpr ⟨h1, h2⟩]

/-- C3 amended: on tide extremes whose parsed events appear in strictly
increasing time order (chronologically sorted and duplicate-free, as the
spec's own sorting note prescribes), trend inference returns `rising` exactly
when the nearest preceding extreme (a time equal to the anchor counts as
preceding) is `low` and the nearest following extreme is `high`; `falling`
in the mirrored case; and `unknown` when nothing parses.  For unsorted input
the scan keeps the last-scanned preceding and first-scanned following events,
which need not be the nearest ones. -/
theorem tide_trend_now_nearest (extremes : List TideEvent) (anchor : Int)
    (hsorted : (tide_parsed extremes).Pairwise fun p q => p.1 < q.1) :
    (tide_trend_now extremes anchor = "rising" ↔
      (∃ p, isNearestPrev (tide_parsed extremes) anchor p ∧ p.2 = "low")
      ∧ ∃ n, isNearestNext (tide_parsed extremes) anchor n ∧ n.2 = "high")
    ∧ (tide_trend_now extremes anchor = "falling" ↔
      (∃ p, isNearestPrev (tide_parsed extremes) anchor p ∧ p.2 = "high")
      ∧ ∃ n, isNearestNext (tide_parsed extremes) anchor n ∧ n.2 = "low")
    ∧ (tide_parsed extremes = [] → tide_trend_now extremes anchor = "unknown") := by
  have hchar := tide_trend_now_eq extremes anchor
  have hPs : ((tide_parsed extremes).filter fun p => decide (p.1 ≤ anchor)).Pairwise
      fun p q => p.1 < q.1 := List.Pairwise.filter _ hsorted
  have hNs : ((tide_parsed extremes).filter fun p => decide (¬ p.1 ≤ anchor)).Pairwise
      fun p q => p.1 < q.1 := List.Pairwise.filter _ hsorted
  have hPspec : ∀ e,
      ((tide_parsed extremes).filter fun p => decide (p.1 ≤ anchor)).getLast? = some e →
      isNearestPrev (tide_parsed extremes) anchor e := by
    intro e he
    have h1 := List.mem_filter.mp (mem_of_getLast?_eq he)
    refine ⟨h1.1, of_decide_eq_true h1.2, ?_⟩
    intro q hq hqa
    exact pairwise_lt_getLast_max hPs he q (List.mem_filter.mpr ⟨hq, decide_eq_true hqa⟩)
  have hNspec : ∀ e,
      ((tide_parsed extremes).filter fun p => decide (¬ p.1 ≤ anchor)).head? = some e →
      isNearestNext (tide_parsed extremes) anchor e := by
    intro e he
    have hmem : e ∈ (tide_parsed extremes).filter fun p => decide (¬ p.1 ≤ anchor) := by
      cases hfl : (tide_parsed extremes).filter fun p => decide (¬ p.1 ≤ anchor) with
      | nil =>
        rw [hfl] at he
        cases he
      | cons a l =>
        rw [hfl, List.head?_cons] at he
        injection he with he
        rw [← he]
        exact List.mem_cons_self a l
    have h1 := List.mem_filter.mp hmem
    refine ⟨h1.1, not_le.mp (of_decide_eq_true h1.2), ?_⟩
    intro q hq hqa
    exact pairwise_lt_head_min hNs he q
      (List.mem_filter.mpr ⟨hq, decide_eq_true (not_le.mpr hqa)⟩)
  have hPuniq : ∀ e e',
      ((tide_parsed extremes).filter fun p => decide (p.1 ≤ anchor)).getLast? = some e →
      isNearestPrev (tide_parsed extremes) anchor e' → e' = e := by
    intro e e' he hne
    have h1 := hPspec e he
    exact pairwise_lt_fst_inj hsorted e' hne.1 e h1.1
      (le_antisymm (h1.2.2 e' hne.1 hne.2.1) (hne.2.2 e h1.1 h1.2.1))
  have hNuniq : ∀ e e',
      ((tide_parsed extremes).filter fun p => decide (¬ p.1 ≤ anchor)).head? = some e →
      isNearestNext (tide_parsed extremes) anchor e' → e' = e := by
    intro e e' he hne
    have h1 := hNspec e he
    exact pairwise_lt_fst_inj hsorted e' hne.1 e h1.1
      (le_antisymm (hne.2.2 e h1.1 h1.2.1) (h1.2.2 e' hne.1 hne.2.1))
  have hPnone :
      ((tide_parsed extremes).filter fun p => decide (p.1 ≤ anchor)).getLast? = none →
      ∀ e, ¬ isNearestPrev (tide_parsed extremes) anchor e := by
    intro he e hne
    have hm : e ∈ (tide_parsed extremes).filter fun p => decide (p.1 ≤ anchor) :=
      List.mem_filter.mpr ⟨hne.1, decide_eq_true hne.2.1⟩
    rw [List.getLast?_eq_none_iff.mp he] at hm
    cases hm
  have hNnone :
      ((tide_parsed extremes).filter fun p => decide (¬ p.1 ≤ anchor)).head? = none →
      ∀ e, ¬ isNearestNext (tide_parsed extremes) anchor e := by
    intro he e hne
    have hm : e ∈ (tide_parsed extremes).filter fun p => decide (¬ p.1 ≤ anchor) :=
      List.mem_filter.mpr ⟨hne.1, decide_eq_true (not_le.mpr hne.2.1)⟩
    rw [List.head?_eq_none_iff.mp he] at hm
    cases hm
  by_cases hemp : (tide_parsed extremes).isEmpty
  · have hpe : tide_parsed extremes = [] := List.isEmpty_iff.mp hemp
    have hresult : tide_trend_now extremes anchor = "unknown" := by
      rw [hchar, if_pos hemp]
    refine ⟨?_, ?_, fun _ => hresult⟩
    · rw [hresult]
      constructor
      · intro h
        exact absurd h (by decide)
      · rintro ⟨⟨p, hp, _⟩, _⟩
        rw [hpe] at hp
        cases hp.1
    · rw [hresult]
      constructor
      · intro h
        exact absurd h (by decide)
      · rintro ⟨⟨p, hp, _⟩, _⟩
        rw [hpe] at hp
        cases hp.1
  · have hne3 : tide_parsed extremes = [] → tide_trend_now extremes anchor = "unknown" :=
      fun hp => absurd (List.isEmpty_iff.mpr hp) hemp
    have hchar2 : tide_trend_now extremes anchor =
        match (((tide_parsed extremes).filter fun p => decide (p.1 ≤ anchor)).getLast?,
               ((tide_parsed extremes).filter fun p => decide (¬ p.1 ≤ anchor)).head?) with
        | (some (_, prevKind), some (_, nextKind)) =>
          if prevKind = "low" ∧ nextKind = "high" then "rising"
          else if prevKind = "high" ∧ nextKind = "low" then "falling"
          else "unknown"
        | _ => "unknown" := by
      rw [hchar, if_neg hemp]
    rcases hPl : ((tide_parsed extremes).filter fun p => decide (p.1 ≤ anchor)).getLast?
      with _ | ⟨pt, pk⟩
    · rcases hNl : ((tide_parsed extremes).filter fun p => decide (¬ p.1 ≤ anchor)).head?
        with _ | ⟨nt, nk⟩
      all_goals {
        simp only [hPl, hNl] at hchar2
        have hresult : tide_trend_now extremes anchor = "unknown" := hchar2
        refine ⟨?_, ?_, hne3⟩
        · rw [hresult]
          constructor
          · intro h
            exact absurd h (by decide)
          · rintro ⟨⟨p, hp, _⟩, _⟩
            exact absurd hp (hPnone hPl p)
        · rw [hresult]
          constructor
          · intro h
            exact absurd h (by decide)
          · rintro ⟨⟨p, hp, _⟩, _⟩
            exact absurd hp (hPnone hPl p) }
    · rcases hNl : ((tide_parsed extremes).filter fun p => decide (¬ p.1 ≤ anchor)).head?
        with _ | ⟨nt, nk⟩
      · simp only [hPl, hNl] at hchar2
        have hresult : tide_trend_now extremes anchor = "unknown" := hchar2
        refine ⟨?_, ?_, hne3⟩
        · rw [hresult]
          constructor
          · intro h
            exact absurd h (by decide)
          · rintro ⟨_, ⟨n, hn, _⟩⟩
            exact absurd hn (hNnone hNl n)
        · rw [hresult]
          constructor
          · intro h
            exact absurd h (by decide)
          · rintro ⟨_, ⟨n, hn, _⟩⟩
            exact absurd hn (hNnone hNl n)
      · simp only [hPl, hNl] at hchar2
        have hP := hPspec (pt, pk) hPl
        have hN := hNspec (nt, nk) hNl
        by_cases hc1 : pk = "low" ∧ nk = "high"
        · have hresult : tide_trend_now extremes anchor = "rising" := by
            rw [hchar2, if_pos hc1]
          refine ⟨?_, ?_, hne3⟩
          · rw [hresult]
            exact ⟨fun _ => ⟨⟨(pt, pk), hP, hc1.1⟩, (nt, nk), hN, hc1.2⟩, fun _ => rfl⟩
          · rw [hresult]
            constructor
            · intro h
              exact absurd h (by decide)
            · rintro ⟨⟨p, hp, hph⟩, _⟩
              have hpe := hPuniq (pt, pk) p hPl hp
              rw [hpe] at hph
              have hpk : pk = "high" := hph
              rw [hc1.1] at hpk
              exact absurd hpk (by decide)
        · by_cases hc2 : pk = "high" ∧ nk = "low"
          · have hresult : tide_trend_now extremes anchor = "falling" := by
              rw [hchar2, if_neg hc1, if_pos hc2]
            refine ⟨?_, ?_, hne3⟩
            · rw [hresult]
              constructor
              · intro h
                exact absurd h (by decide)
              · rintro ⟨⟨p, hp, hpl⟩, _⟩
                have hpe := hPuniq (pt, pk) p hPl hp
                rw [hpe] at hpl
                have hpk : pk = "low" := hpl
                rw [hc2.1] at hpk
                exact absurd hpk (by decide)
            · rw [hresult]
              exact ⟨fun _ => ⟨⟨(pt, pk), hP, hc2.1⟩, (nt, nk), hN, hc2.2⟩, fun _ => rfl⟩
          · have hresult : tide_trend_now extremes anchor = "unknown" := by
              rw [hchar2, if_neg hc1, if_neg hc2]
            refine ⟨?_, ?_, hne3⟩
            · rw [hresult]
              constructor
              · intro h
                exact absurd h (by decide)
              · rintro ⟨⟨p, hp, hpl⟩, n, hn, hnh⟩
                have hpe := hPuniq (pt, pk) p hPl hp
                have hnee := hNuniq (nt, nk) n hNl hn
                rw [hpe] at hpl
                rw [hnee] at hnh
                exact absurd ⟨hpl, hnh⟩ hc1
            · rw [hresult]
              constructor
              · intro h
                exact absurd h (by decide)
              · rintro ⟨⟨p, hp, hph⟩, n, hn, hnl⟩
                have hpe := hPuniq (pt, pk) p hPl hp
                have hnee := hNuniq (nt, nk) n hNl hn
                rw [hpe] at hph
                rw [hnee] at hnl
                exact absurd ⟨hph, hnl⟩ hc2

/-- A high-tide extreme 2 s after the epoch. -/
def evHigh2 : TideEvent :=
  { time := some "1970-01-01T00:00:02Z", type := some "high", heightM := none }

/-- A low-tide extreme 1 s after the epoch. -/
def evLow1 : TideEvent :=
  { time := some "1970-01-01T00:00:01Z", type := some "low", heightM := none }

/-- A high-tide extreme 5 s after the epoch. -/
def evHigh5 : TideEvent :=
  { time := some "1970-01-01T00:00:05Z", type := some "high", heightM := none }

/-- A low-tide extreme exactly 3 s after the epoch. -/
def evLow3 : TideEvent :=
  { time := some "1970-01-01T00:00:03Z", type := some "low", heightM := none }

/-- Counterexample to C3 as stated (over every list of extremes): on the
unsorted list `[high@2, low@1, high@5]` with anchor 3, the scan's `prev` is
the last-scanned preceding event (`low@1`), not the nearest one (`high@2`),
so the code returns `rising` even though every nearest preceding extreme has
type `high` — by the claim the result would have to be not-`rising`. -/
theorem tide_trend_now_counterexample :
    tide_trend_now [evHigh2, evLow1, evHigh5] 3 = "rising"
    ∧ ∀ e ∈ tide_parsed [evHigh2, evLow1, evHigh5],
        isNearestPrev (tide_parsed [evHigh2, evLow1, evHigh5]) 3 e → e.2 = "high" := by
  constructor
  · decide
  · decide

/-- Witness for the amended C3 at a concrete sorted input `[low@3, high@5]`
with anchor 3: the extreme exactly at the anchor counts as preceding, so the
trend is `rising`. -/
theorem tide_trend_now_nearest_witness :
    (tide_trend_now [evLow3, evHigh5] 3 = "rising" ↔
      (∃ p, isNearestPrev (tide_parsed [evLow3, evHigh5]) 3 p ∧ p.2 = "low")
      ∧ ∃ n, isNearestNext (tide_parsed [evLow3, evHigh5]) 3 n ∧ n.2 = "high")
    ∧ (tide_trend_now [evLow3, evHigh5] 3 = "falling" ↔
      (∃ p, isNearestPrev (tide_parsed [evLow3, evHigh5]) 3 p ∧ p.2 = "high")
      ∧ ∃ n, isNearestNext (tide_parsed [evLow3, evHigh5]) 3 n ∧ n.2 = "low")
    ∧ (tide_parsed [evLow3, evHigh5] = [] → tide_trend_now [evLow3, evHigh5] 3 = "unknown") :=
  tide_trend_now_nearest [evLow3, evHigh5] 3 (by decide)

/-- A per-day bucket: the dict `{"high": [...], "low": [...]}` written by
`out.setdefault(day, {"high": [], "low": []})`, as a key-value list, each
list holding `{time, heightM}` entries in first-seen order. -/
abbrev DayBucket := List (String × List (String × Option ℚ))

/-- The fresh bucket inserted for a newly-seen day. -/
def emptyBucket : DayBucket := [("high", []), ("low", [])]

/-- `out[day][kind].append(entry)`. -/
def bucket_add (b : DayBucket) (kind : String) (entry : String × Option ℚ) : DayBucket :=
  b.map fun kl => if kl.1 = kind then (kl.1, kl.2 ++ [entry]) else kl

/-- `out.setdefault(day, {"high": [], "low": []})`: a new day is appended at
the end (Python dict insertion order). -/
def day_setdefault (out : List (Int × DayBucket)) (day : Int) : List (Int × DayBucket) :=
  if (out.lookup day).isSome then out else out ++ [(day, emptyBucket)]

/-- Apply `bucket_add` to one day's bucket. -/
def day_update (out : List (Int × DayBucket)) (day : Int) (kind : String)
    (entry : String × Option ℚ) : List (Int × DayBucket) :=
  out.map fun db => if db.1 = day then (db.1, bucket_add db.2 kind entry) else db

/-- One iteration of the `tides_by_day` loop: skip events whose time is
absent or unparseable; create the day bucket (UTC calendar day, modelled as
the day index `t // 86400` — `date().isoformat()` renders it injectively);
append only events whose lower-cased type is `high` or `low`. -/
def tides_by_day_step (out : List (Int × DayBucket)) (e : TideEvent) : List (Int × DayBucket) :=
  match e.time with
  | none => out
  | some s =>
    match parse_time s with
    | none => out
    | some t =>
      if pyLower (e.type.getD "") = "high" ∨ pyLower (e.type.getD "") = "low" then
        day_update (day_setdefault out (Int.fdiv t 86400)) (Int.fdiv t 86400)
          (pyLower (e.type.getD "")) (s, e.heightM)
      else day_setdefault out (Int.fdiv t 86400)

/-- `tides_by_day(extremes)` from the source. -/
def tides_by_day (extremes : List TideEvent) : List (Int × DayBucket) :=
  extremes.foldl tides_by_day_step []

/-- The C9 invariant of an accumulated day-grouping: every bucket has exactly
the keys `high` and `low`, and every appended entry stems from an event in
`S` whose lower-cased type equals its bucket key. -/
def BucketsOk (S : List TideEvent) (out : List (Int × DayBucket)) : Prop :=
  ∀ db ∈ out, db.2.map Prod.fst = ["high", "low"]
    ∧ ∀ ke ∈ db.2, ∀ ent ∈ ke.2,
        ∃ e ∈ S, e.time = some ent.1 ∧ e.heightM = ent.2
          ∧ pyLower (e.type.getD "") = ke.1 ∧ (ke.1 = "high" ∨ ke.1 = "low")

theorem bucket_add_keys (b : DayBucket) (kind : String) (entry : String × Option ℚ) :
    (bucket_add b kind entry).map Prod.fst = b.map Prod.fst := by
  induction b with
  | nil => rfl
  | cons kl rest ih =>
    unfold bucket_add at ih ⊢
    rw [List.map_cons, List.map_cons, List.map_cons, ih]
    by_cases hk : kl.1 = kind
    · rw [if_pos hk]
    · rw [if_neg hk]

theorem tides_by_day_step_preserves (S : List TideEvent) (e : TideEvent) (he : e ∈ S)
    (out : List (Int × DayBucket)) (hout : BucketsOk S out) :
    BucketsOk S (tides_by_day_step out e) := by
  unfold tides_by_day_step
  cases het : e.time with
  | none => exact hout
  | some s =>
    show BucketsOk S (match parse_time s with
      | none => out
      | some t =>
        if pyLower (e.type.getD "") = "high" ∨ pyLower (e.type.getD "") = "low" then
          day_update (day_setdefault out (Int.fdiv t 86400)) (Int.fdiv t 86400)
            (pyLower (e.type.getD "")) (s, e.heightM)
        else day_setdefault out (Int.fdiv t 86400))
    cases hpt : parse_time s with
    | none => exact hout
    | some t =>
      have hout1 : BucketsOk S (day_setdefault out (Int.fdiv t 86400)) := by
        unfold day_setdefault
        by_cases hl : (out.lookup (Int.fdiv t 86400)).isSome = true
        · rw [if_pos hl]
          exact hout
        · rw [if_neg hl]
          intro db hdb
          rcases List.mem_append.mp hdb with hmem | hmem
          · exact hout db hmem
          · rw [List.mem_singleton.mp hmem]
            refine ⟨rfl, ?_⟩
            intro ke hke ent hent
            rcases List.mem_cons.mp hke with rfl | hke
            · cases hent
            · rcases List.mem_singleton.mp hke with rfl
              cases hent
      show BucketsOk S (if pyLower (e.type.getD "") = "high" ∨ pyLower (e.type.getD "") = "low"
        then day_update (day_setdefault out (Int.fdiv t 86400)) (Int.fdiv t 86400)
          (pyLower (e.type.getD "")) (s, e.heightM)
        else day_setdefault out (Int.fdiv t 86400))
      by_cases hk : pyLower (e.type.getD "") = "high" ∨ pyLower (e.type.getD "") = "low"
      · rw [if_pos hk]
        intro db hdb
        obtain ⟨db0, hdb0, hdbeq⟩ := List.mem_map.mp hdb
        by_cases hd : db0.1 = Int.fdiv t 86400
        · rw [if_pos hd] at hdbeq
          obtain ⟨hkeys0, hent0⟩ := hout1 db0 hdb0
          rw [← hdbeq]
          constructor
          · rw [bucket_add_keys]
            exact hkeys0
          · intro ke hke ent hent
            obtain ⟨kl, hkl, hkleq⟩ := List.mem_map.mp hke
            by_cases hkk : kl.1 = pyLower (e.type.getD "")
            · rw [if_pos hkk] at hkleq
              rw [← hkleq] at hent ⊢
              rcases List.mem_append.mp hent with hold | hnew
              · exact hent0 kl hkl ent hold
              · rw [List.mem_singleton.mp hnew]
                refine ⟨e, he, het, rfl, hkk.symm, ?_⟩
                show kl.1 = "high" ∨ kl.1 = "low"
                rw [hkk]
                exact hk
            · rw [if_neg hkk] at hkleq
              rw [← hkleq] at hent ⊢
              exact hent0 kl hkl ent hent
        · rw [if_neg hd] at hdbeq
          rw [← hdbeq]
          exact hout1 db0 hdb0
      · rw [if_neg hk]
        exact hout1

theorem tides_by_day_fold (extremes : List TideEvent) :
    ∀ (S : List TideEvent), (∀ x ∈ extremes, x ∈ S) →
    ∀ out, BucketsOk S out → BucketsOk S (extremes.foldl tides_by_day_step out) := by
  induction extremes with
  | nil =>
    intro S _ out h
    exact h
  | cons e rest ih =>
    intro S hsub out hout
    rw [List.foldl_cons]
    exact ih S (fun x hx => hsub x (List.mem_cons_of_mem e hx)) _
      (tides_by_day_step_preserves S e (hsub e (List.mem_cons_self e rest)) out hout)

/-- C9: every per-day bucket produced by day grouping carries exactly the
keys `high` and `low`; every appended entry stems from an extreme whose
lower-cased type equals that (recognized) bucket key — an extreme with an
unrecognized type is never appended; and any raw tide event with a truthy
time still appears (type unchanged) in the flat normalized extremes list. -/
theorem tides_by_day_only_high_low (extremes : List TideEvent) :
    (∀ db ∈ tides_by_day extremes,
      db.2.map Prod.fst = ["high", "low"]
      ∧ ∀ ke ∈ db.2, ∀ ent ∈ ke.2,
          ∃ e ∈ extremes, e.time = some ent.1 ∧ e.heightM = ent.2
            ∧ pyLower (e.type.getD "") = ke.1 ∧ (ke.1 = "high" ∨ ke.1 = "low"))
    ∧ ∀ (data : List RawTide), ∀ item ∈ data,
        (∃ s, item.time = some s ∧ s ≠ "") →
        ∃ ev ∈ normalize_tides data, ev.time = item.time ∧ ev.type = item.type := by
  constructor
  · exact tides_by_day_fold extremes extremes (fun _ h => h) []
      (by intro db hdb; cases hdb)
  · intro data item hitem hs
    obtain ⟨s, hst, hsne⟩ := hs
    refine ⟨{ time := some s, type := item.type, heightM := toFloatQ item.height },
      ?_, by rw [hst], rfl⟩
    unfold normalize_tides
    rw [List.mem_insertionSort]
    refine List.mem_filterMap.mpr ⟨item, hitem, ?_⟩
    rw [hst]
    show (if s = "" then none else some _) = some _
    rw [if_neg hsne]

/-- A raw tide event with an unrecognized type. -/
def rawSlack : RawTide :=
  { time := some "1970-01-01T00:00:02Z", type := some "slack", height := JVal.null }

/-- Witness for C9 at a concrete input: the single high-tide extreme lands in
the `high` list of its day's bucket, whose key set is exactly high/low, and a
raw `slack`-typed event still reaches the flat normalized list. -/
theorem tides_by_day_only_high_low_witness :
    (([("high", [("1970-01-01T00:00:02Z", (none : Option ℚ))]), ("low", [])] :
        DayBucket).map Prod.fst = ["high", "low"]
      ∧ ∃ e ∈ [evHigh2], e.time = some "1970-01-01T00:00:02Z" ∧ e.heightM = none
          ∧ pyLower (e.type.getD "") = "high" ∧ ("high" = "high" ∨ "high" = "low"))
    ∧ ∃ ev ∈ normalize_tides [rawSlack],
        ev.time = some "1970-01-01T00:00:02Z" ∧ ev.type = some "slack" := by
  have h1 := (tides_by_day_only_high_low [evHigh2]).1
    (0, [("high", [("1970-01-01T00:00:02Z", (none : Option ℚ))]), ("low", [])])
    (by decide)
  have h2 := (tides_by_day_only_high_low [evHigh2]).2
    [rawSlack] rawSlack (List.mem_singleton.mpr rfl)
    ⟨"1970-01-01T00:00:02Z", rfl, by decide⟩
  exact ⟨⟨h1.1, h1.2 ("high", [("1970-01-01T00:00:02Z", none)]) (by decide)
    ("1970-01-01T00:00:02Z", none) (by decide)⟩, h2⟩

/-- The assembled report (the parts of the source's dict with algorithmic
content; `meta` and `location` carry only caller-supplied I/O data and are
outside the modelled core). -/
structure Report where
  horizon : Horizon
  now : NHour
  windows : List (String × Window)
  trendNow : String
  extremes : List TideEvent
  byDay : List (Int × DayBucket)

/-- The assembly core of `build_report` (source lines after fetching): filter
raw hours to those carrying a `time` key, normalize each, raise the DataGap
`ApiError` if none survive, pick the nearest hour, normalize tides, build
windows, and assemble the report.  The dict literal evaluates `build_windows`
after `nearest_hour`, so errors surface in that order. -/
def build_report_core (weather_hours : List RawHour) (tide_data : List RawTide)
    (anchor : Int) (horizon : Horizon) (sources : List String) : Except SurfError Report :=
  let normalized := (weather_hours.filter fun h => (List.lookup "time" h).isSome).map
    fun h => normalize_hour h sources
  if normalized.isEmpty then
    Except.error (SurfError.dataGap "No weather data points returned")
  else
    match nearest_hour normalized anchor with
    | Except.error e => Except.error e
    | Except.ok current =>
      match build_windows normalized anchor horizon with
      | Except.error e => Except.error e
      | Except.ok windows =>
        Except.ok
          { horizon := horizon, now := current, windows := windows,
            trendNow := tide_trend_now (normalize_tides tide_data) anchor,
            extremes := normalize_tides tide_data,
            byDay := tides_by_day (normalize_tides tide_data) }

/-- C7: when zero raw weather hours carry a `time` field, report assembly
raises the DataGap error (`ApiError("No weather data points returned")`) and
never returns a report. -/
theorem build_report_core_datagap (weather_hours : List RawHour) (tide_data : List RawTide)
    (anchor : Int) (horizon : Horizon) (sources : List String)
    (hno : ∀ h ∈ weather_hours, List.lookup "time" h = none) :
    build_report_core weather_hours tide_data anchor horizon sources =
      Except.error (SurfError.dataGap "No weather data points returned") := by
  have hfil : weather_hours.filter (fun h => (List.lookup "time" h).isSome) = [] := by
    rw [List.filter_eq_nil_iff]
    intro h hh
    simp [hno h hh]
  simp [build_report_core, hfil]

/-- Witness for C7 at a concrete input: one raw hour with metrics but no
`time` key. -/
theorem build_report_core_datagap_witness :
    build_report_core [[("waveHeight", JVal.num 1)]] [] 0 Horizon.h24 [] =
      Except.error (SurfError.dataGap "No weather data points returned") :=
  build_report_core_datagap [[("waveHeight", JVal.num 1)]] [] 0 Horizon.h24 []
    (by
      intro h hh
      rw [List.mem_singleton.mp hh]
      rfl)

theorem nearest_go_error (anchor : Int) :
    ∀ (l : List NHour) (best : Int × NHour), (∃ h ∈ l, parse_time h.time = none) →
      ∃ v, nearest_go anchor best l = Except.error (SurfError.parseFail v) := by
  intro l
  induction l with
  | nil =>
    rintro best ⟨h, hh, _⟩
    cases hh
  | cons h rest ih =>
    rintro best ⟨h0, hh0, hbad⟩
    cases hpt : parse_time h.time with
    | none =>
      refine ⟨h.time, ?_⟩
      conv_lhs => unfold nearest_go
      simp only [hpt]
    | some t =>
      have hrest : ∃ h' ∈ rest, parse_time h'.time = none := by
        rcases List.mem_cons.mp hh0 with rfl | hm
        · rw [hpt] at hbad
          cases hbad
        · exact ⟨h0, hm, hbad⟩
      by_cases hc : |t - anchor| < best.1
      · obtain ⟨v, hv⟩ := ih (|t - anchor|, h) hrest
        refine ⟨v, ?_⟩
        have hstep : nearest_go anchor best (h :: rest) =
            nearest_go anchor (|t - anchor|, h) rest := by
          conv_lhs => unfold nearest_go
          simp only [hpt]
          rw [if_pos hc]
        rw [hstep]
        exact hv
      · obtain ⟨v, hv⟩ := ih best hrest
        refine ⟨v, ?_⟩
        have hstep : nearest_go anchor best (h :: rest) = nearest_go anchor best rest := by
          conv_lhs => unfold nearest_go
          simp only [hpt]
          rw [if_neg hc]
        rw [hstep]
        exact hv

theorem collect_in_window_error (anchor stop : Int) :
    ∀ l : List NHour, (∃ h ∈ l, parse_time h.time = none) →
      ∃ v, collect_in_window anchor stop l = Except.error (SurfError.parseFail v) := by
  intro l
  induction l with
  | nil =>
    rintro ⟨h, hh, _⟩
    cases hh
  | cons h rest ih =>
    rintro ⟨h0, hh0, hbad⟩
    cases hpt : parse_time h.time with
    | none =>
      refine ⟨h.time, ?_⟩
      conv_lhs => unfold collect_in_window
      simp only [hpt]
    | some t =>
      have hrest : ∃ h' ∈ rest, parse_time h'.time = none := by
        rcases List.mem_cons.mp hh0 with rfl | hm
        · rw [hpt] at hbad
          cases hbad
        · exact ⟨h0, hm, hbad⟩
      obtain ⟨v, hv⟩ := ih hrest
      refine ⟨v, ?_⟩
      conv_lhs => unfold collect_in_window
      simp only [hpt, hv]

/-- C10: a normalized hour whose time field is present but unparseable is not
skipped locally (unlike malformed tide events and metric entries): nearest-
hour selection raises the parse error, and window construction raises it for
every horizon that builds at least one window (every horizon except `now`),
aborting report assembly. -/
theorem malformed_time_raises (hours : List NHour) (anchor : Int) (horizon : Horizon)
    (hbad : ∃ h ∈ hours, parse_time h.time = none) :
    (∃ v, nearest_hour hours anchor = Except.error (SurfError.parseFail v))
    ∧ (horizon ≠ Horizon.now →
        ∃ v, build_windows hours anchor horizon = Except.error (SurfError.parseFail v)) := by
  constructor
  · cases hours with
    | nil =>
      obtain ⟨h, hh, _⟩ := hbad
      cases hh
    | cons h0 rest =>
      cases hpt : parse_time h0.time with
      | none =>
        refine ⟨h0.time, ?_⟩
        conv_lhs => unfold nearest_hour
        simp only [hpt]
      | some t0 =>
        have hrest : ∃ h' ∈ rest, parse_time h'.time = none := by
          obtain ⟨h1, hh1, hbad1⟩ := hbad
          rcases List.mem_cons.mp hh1 with rfl | hm
          · rw [hpt] at hbad1
            cases hbad1
          · exact ⟨h1, hm, hbad1⟩
        obtain ⟨v, hv⟩ := nearest_go_error anchor rest (|t0 - anchor|, h0) hrest
        refine ⟨v, ?_⟩
        have hstep : nearest_hour (h0 :: rest) anchor =
            nearest_go anchor (|t0 - anchor|, h0) rest := by
          conv_lhs => unfold nearest_hour
          simp only [hpt]
        rw [hstep]
        exact hv
  · intro hnow
    have hskip2 : ¬ (HORIZON_HOURS horizon < 24 ∨ horizon = Horizon.now) := by
      cases horizon with
      | now => exact absurd rfl hnow
      | h24 => decide
      | h48 => decide
      | h72 => decide
    obtain ⟨v, hv⟩ := collect_in_window_error anchor (anchor + ((24 : Nat) : Int) * 3600) hours hbad
    refine ⟨v, ?_⟩
    have h0 : build_windows hours anchor horizon =
        build_windows_go hours anchor horizon [("24h", 24), ("48h", 48), ("72h", 72)] := rfl
    rw [h0]
    conv_lhs => unfold build_windows_go
    rw [if_neg hskip2]
    simp only [hv]

/-- Witness for C10 at a concrete input: an hour whose time is the
unparseable string `not-a-timestamp`. -/
theorem malformed_time_raises_witness :
    (∃ v, nearest_hour [hourAt "not-a-timestamp"] 0 =
        Except.error (SurfError.parseFail v))
    ∧ (Horizon.h24 ≠ Horizon.now →
        ∃ v, build_windows [hourAt "not-a-timestamp"] 0 Horizon.h24 =
          Except.error (SurfError.parseFail v)) :=
  malformed_time_raises [hourAt "not-a-timestamp"] 0 Horizon.h24 (by decide)
